import Mathlib

/-!
Shallow embedding of the `bridge-types` Rust library (`src/lib.rs`) and
verification of the specification's claims about it.

Machine integers (`u32`, `u8`) are modelled as `Nat`.  Rust left shifts on
`u32` mask the shift amount modulo 32 (release semantics), so `1 << rank`
is modelled as `1 <<< (rank % 32)`; `u32::count_ones` is the population
count of the 32-bit word, modelled as the number of set bits among
positions `0..32`.
-/

/-! ## Enumerations (Suit, Strain, Seat, SeatRelation, Side) -/

/-- `Suit` from the source: Spades, Hearts, Diamonds, Clubs. -/
inductive Suit : Type
  | Spades
  | Hearts
  | Diamonds
  | Clubs
deriving DecidableEq, Fintype, Repr

/-- `Ord for Suit`: the 16-arm match from the source, translated arm by arm. -/
def Suit.cmp (self other : Suit) : Ordering :=
  match self, other with
  | Suit.Spades, Suit.Spades => Ordering.eq
  | Suit.Spades, Suit.Hearts => Ordering.gt
  | Suit.Spades, Suit.Diamonds => Ordering.gt
  | Suit.Spades, Suit.Clubs => Ordering.gt
  | Suit.Hearts, Suit.Spades => Ordering.lt
  | Suit.Hearts, Suit.Hearts => Ordering.eq
  | Suit.Hearts, Suit.Diamonds => Ordering.gt
  | Suit.Hearts, Suit.Clubs => Ordering.gt
  | Suit.Diamonds, Suit.Spades => Ordering.lt
  | Suit.Diamonds, Suit.Hearts => Ordering.lt
  | Suit.Diamonds, Suit.Diamonds => Ordering.eq
  | Suit.Diamonds, Suit.Clubs => Ordering.gt
  | Suit.Clubs, Suit.Spades => Ordering.lt
  | Suit.Clubs, Suit.Hearts => Ordering.lt
  | Suit.Clubs, Suit.Diamonds => Ordering.lt
  | Suit.Clubs, Suit.Clubs => Ordering.eq

/-- `Strain` from the source: NoTrump or a wrapped Suit. -/
inductive Strain : Type
  | NoTrump
  | Suit (s : Suit)
deriving DecidableEq, Repr

/-- `Ord for Strain` from the source. -/
def Strain.cmp (self other : Strain) : Ordering :=
  match self, other with
  | Strain.NoTrump, Strain.NoTrump => Ordering.eq
  | Strain.NoTrump, Strain.Suit _ => Ordering.gt
  | Strain.Suit _, Strain.NoTrump => Ordering.lt
  | Strain.Suit s1, Strain.Suit s2 => Suit.cmp s1 s2

/-- `From<Suit> for Strain` from the source (top level because `Suit` would
otherwise resolve to the constructor `Strain.Suit` inside the namespace). -/
def strainFromSuit (suit : Suit) : Strain :=
  Strain.Suit suit

/-- `Seat` from the source. -/
inductive Seat : Type
  | North
  | East
  | South
  | West
deriving DecidableEq, Fintype, Repr

/-- `SeatRelation` from the source. -/
inductive SeatRelation : Type
  | Me
  | LHO
  | Partner
  | RHO
deriving DecidableEq, Repr

/-- `Seat::next`: next player in play order. -/
def Seat.next (self : Seat) : Seat :=
  match self with
  | Seat.North => Seat.East
  | Seat.East => Seat.South
  | Seat.South => Seat.West
  | Seat.West => Seat.North

/-- `Seat::partner`. -/
def Seat.partner (self : Seat) : Seat :=
  match self with
  | Seat.North => Seat.South
  | Seat.East => Seat.West
  | Seat.South => Seat.North
  | Seat.West => Seat.East

/-- `Seat::lho`: left hand opponent (same table as `next`). -/
def Seat.lho (self : Seat) : Seat :=
  match self with
  | Seat.North => Seat.East
  | Seat.East => Seat.South
  | Seat.South => Seat.West
  | Seat.West => Seat.North

/-- `Seat::rho`: right hand opponent. -/
def Seat.rho (self : Seat) : Seat :=
  match self with
  | Seat.North => Seat.West
  | Seat.East => Seat.North
  | Seat.South => Seat.East
  | Seat.West => Seat.South

/-- `Seat::relation_to` from the source. -/
def Seat.relation_to (self other : Seat) : SeatRelation :=
  if self = other then
    SeatRelation.Me
  else if self = other.next then
    SeatRelation.LHO
  else if self = other.partner then
    SeatRelation.Partner
  else
    SeatRelation.RHO

/-- `Side` from the source. -/
inductive Side : Type
  | NS
  | EW
deriving DecidableEq, Repr

/-- `Seat::side` from the source. -/
def Seat.side (self : Seat) : Side :=
  match self with
  | Seat.North => Side.NS
  | Seat.East => Side.EW
  | Seat.South => Side.NS
  | Seat.West => Side.EW

/-- `Side::opponents` from the source. -/
def Side.opponents (self : Side) : Side :=
  match self with
  | Side.NS => Side.EW
  | Side.EW => Side.NS

/-! ## Holding: bitset of held card ranks -/

/-- `Holding(pub u32)` from the source; the wrapped 32-bit word as a `Nat`. -/
structure Holding : Type where
  bits : Nat
deriving DecidableEq, Repr

/-- `Holding::new()`. -/
def Holding.new : Holding :=
  Holding.mk 0

/-- `Holding::add`: `self.0 |= 1 << rank` (u32 shift masks the amount mod 32). -/
def Holding.add (self : Holding) (rank : Nat) : Holding :=
  Holding.mk (self.bits ||| (1 <<< (rank % 32)))

/-- `Holding::remove`: `self.0 &= !(1 << rank)`; `!` on u32 is xor with `2^32 - 1`. -/
def Holding.remove (self : Holding) (rank : Nat) : Holding :=
  Holding.mk (self.bits &&& ((1 <<< (rank % 32)) ^^^ (2 ^ 32 - 1)))

/-- `Holding::contains`: `self.0 & (1 << rank) != 0`. -/
def Holding.contains (self : Holding) (rank : Nat) : Bool :=
  self.bits &&& (1 <<< (rank % 32)) != 0

/-- `Holding::count`: `self.0.count_ones()`, the number of set bits of the
32-bit word. -/
def Holding.count (self : Holding) : Nat :=
  (List.range 32).countP (fun i => self.bits.testBit i)

/-- `FromIterator<u32> for Holding`: start from `Holding::new()` and `add`
each element in order. -/
def Holding.from_iter (xs : List Nat) : Holding :=
  xs.foldl Holding.add Holding.new

/-- `HoldingIterator` from the source: the holding plus the two cursors. -/
structure HoldingIterator : Type where
  holding : Holding
  front : Nat
  back : Nat
deriving DecidableEq, Repr

/-- The `front` initialisation loop of `Holding::iter` and the advancing loop
of `HoldingIterator::next`: `while front < 15 && !self.contains(front) front += 1`.
The loop increments `front` and stops once `front` reaches 15, so `15 - front`
steps of fuel always suffice. -/
def frontScan (h : Holding) : Nat → Nat → Nat
  | 0, f => f
  | fuel + 1, f => if f < 15 && !(h.contains f) then frontScan h fuel (f + 1) else f

/-- The `front` loop run to completion: fuel `15 - f` is enough because each
iteration requires `f < 15`. -/
def Holding.frontInit (h : Holding) (f : Nat) : Nat :=
  frontScan h (15 - f) f

/-- The `back` initialisation loop of `Holding::iter` and the retreating loop
of `HoldingIterator::next_back`: `while back > 1 && !self.contains(back) back -= 1`.
The loop decrements `back` and stops at 1, so `back` steps of fuel suffice. -/
def backScan (h : Holding) : Nat → Nat → Nat
  | 0, b => b
  | fuel + 1, b => if b > 1 && !(h.contains b) then backScan h fuel (b - 1) else b

/-- The `back` loop run to completion. -/
def Holding.backInit (h : Holding) (b : Nat) : Nat :=
  backScan h b b

/-- `Holding::iter`: scan `front` up from 2 and `back` down from 14. -/
def Holding.iter (self : Holding) : HoldingIterator :=
  HoldingIterator.mk self (self.frontInit 2) (self.backInit 14)

/-- `HoldingIterator::next`: `None` when `front > back`, otherwise emit
`front` and advance it past unset bits (below 15). -/
def HoldingIterator.next (it : HoldingIterator) : Option Nat × HoldingIterator :=
  if it.back < it.front then
    (none, it)
  else
    (some it.front, HoldingIterator.mk it.holding (it.holding.frontInit (it.front + 1)) it.back)

/-- `HoldingIterator::next_back`: `None` when `front > back`, otherwise emit
`back` and retreat it past unset bits (above 1). -/
def HoldingIterator.next_back (it : HoldingIterator) : Option Nat × HoldingIterator :=
  if it.back < it.front then
    (none, it)
  else
    (some it.back, HoldingIterator.mk it.holding it.front (it.holding.backInit (it.back - 1)))

/-- Repeatedly calling `next` until it returns `None`, collecting the yields:
the list a full forward traversal (e.g. `collect()`) produces.  Each emission
strictly increases `front`, so `back + 1 - front` steps of fuel suffice. -/
def fwdRun (h : Holding) (b : Nat) : Nat → Nat → List Nat
  | 0, _ => []
  | fuel + 1, f => if b < f then [] else f :: fwdRun h b fuel (h.frontInit (f + 1))

/-- Repeatedly calling `next_back` until it returns `None`, collecting the
yields. Each emission strictly decreases `back`. -/
def bwdRun (h : Holding) (f : Nat) : Nat → Nat → List Nat
  | 0, _ => []
  | fuel + 1, b => if b < f then [] else b :: bwdRun h f fuel (h.backInit (b - 1))

/-- The full ascending traversal of an iterator (repeated `next`). -/
def HoldingIterator.toListFwd (it : HoldingIterator) : List Nat :=
  fwdRun it.holding it.back (it.back + 1 - it.front) it.front

/-- The full descending traversal of an iterator (repeated `next_back`). -/
def HoldingIterator.toListBwd (it : HoldingIterator) : List Nat :=
  bwdRun it.holding it.front (it.back + 1 - it.front) it.back

/-- The ascending sequence `h.iter()` produces. -/
def Holding.ascList (self : Holding) : List Nat :=
  self.iter.toListFwd

/-- The descending sequence `h.iter()` produces when traversed from the back. -/
def Holding.descList (self : Holding) : List Nat :=
  self.iter.toListBwd

/-- An arbitrary interleaving of forward (`true`) and backward (`false`)
steps on one iterator, collecting every yielded rank in emission order. -/
def runSteps : List Bool → HoldingIterator → List Nat × HoldingIterator
  | [], it => ([], it)
  | d :: ds, it =>
    let s := if d then it.next else it.next_back
    let rest := runSteps ds s.2
    (s.1.toList ++ rest.1, rest.2)

/-- The set of held ranks of a holding, read off the 32-bit word directly:
the bit positions that are set, in ascending order. -/
def Holding.heldRanks (self : Holding) : List Nat :=
  (List.range 32).filter (fun i => self.bits.testBit i)

/-- Invariant of a `HoldingIterator` state maintained by `iter`, `next` and
`next_back`: the cursors stay in the scanned domain and, while the iterator
is not exhausted, both cursors point at held ranks. -/
def IterInv (it : HoldingIterator) : Prop :=
  2 ≤ it.front ∧ 1 ≤ it.back ∧ it.back ≤ 14 ∧ it.front ≤ 15 ∧
    (it.front ≤ it.back →
      it.holding.contains it.front = true ∧ it.holding.contains it.back = true)

/-! ## Per-dimension containers -/

/-- `PerSuit<T>` from the source. -/
structure PerSuit (T : Type u) : Type u where
  spades : T
  hearts : T
  diamonds : T
  clubs : T
deriving DecidableEq

/-- `PerSuit::new`: every field set to the same value. -/
def PerSuit.new (value : T) : PerSuit T :=
  PerSuit.mk value value value value

/-- `PerSuit::map`: apply `f` to every field. -/
def PerSuit.map (self : PerSuit T) (f : T → S) : PerSuit S :=
  PerSuit.mk (f self.spades) (f self.hearts) (f self.diamonds) (f self.clubs)

/-- `Index<Suit> for PerSuit`: field selection by key. -/
def PerSuit.index (self : PerSuit T) (i : Suit) : T :=
  match i with
  | Suit.Spades => self.spades
  | Suit.Hearts => self.hearts
  | Suit.Diamonds => self.diamonds
  | Suit.Clubs => self.clubs

/-- `PerSeat<T>` from the source. -/
structure PerSeat (T : Type u) : Type u where
  north : T
  east : T
  south : T
  west : T
deriving DecidableEq

/-- `PerSeat::new`. -/
def PerSeat.new (value : T) : PerSeat T :=
  PerSeat.mk value value value value

/-- `PerSeat::map`. -/
def PerSeat.map (self : PerSeat T) (f : T → S) : PerSeat S :=
  PerSeat.mk (f self.north) (f self.east) (f self.south) (f self.west)

/-- `Index<Seat> for PerSeat`. -/
def PerSeat.index (self : PerSeat T) (i : Seat) : T :=
  match i with
  | Seat.North => self.north
  | Seat.East => self.east
  | Seat.South => self.south
  | Seat.West => self.west

/-- `PerStrain<T>` from the source. -/
structure PerStrain (T : Type u) : Type u where
  notrump : T
  spades : T
  hearts : T
  diamonds : T
  clubs : T
deriving DecidableEq

/-- `PerStrain::new`. -/
def PerStrain.new (value : T) : PerStrain T :=
  PerStrain.mk value value value value value

/-- `Index<Strain> for PerStrain`. -/
def PerStrain.index (self : PerStrain T) (i : Strain) : T :=
  match i with
  | Strain.NoTrump => self.notrump
  | Strain.Suit Suit.Spades => self.spades
  | Strain.Suit Suit.Hearts => self.hearts
  | Strain.Suit Suit.Diamonds => self.diamonds
  | Strain.Suit Suit.Clubs => self.clubs

/-- Modelled from the spec: the source defines no `map` for `PerStrain`
(only `new` and indexing); spec §4.3 states the container contract uniformly
for all four instantiations, with `map(f)` producing "a new container of the
same key set with `f` applied to every value independently". -/
def PerStrain.map (self : PerStrain T) (f : T → S) : PerStrain S :=
  PerStrain.mk (f self.notrump) (f self.spades) (f self.hearts) (f self.diamonds) (f self.clubs)

/-- `PerSide<T>` from the source. -/
structure PerSide (T : Type u) : Type u where
  ns : T
  ew : T
deriving DecidableEq

/-- `PerSide::new`. -/
def PerSide.new (value : T) : PerSide T :=
  PerSide.mk value value

/-- `PerSide::map`. -/
def PerSide.map (self : PerSide T) (f : T → S) : PerSide S :=
  PerSide.mk (f self.ns) (f self.ew)

/-- `Index<Side> for PerSide`. -/
def PerSide.index (self : PerSide T) (i : Side) : T :=
  match i with
  | Side.NS => self.ns
  | Side.EW => self.ew

/-! ## Contract and its textual rendering -/

/-- `Doubling` from the source. -/
inductive Doubling : Type
  | Undoubled
  | Doubled
  | Redoubled
deriving DecidableEq, Repr

/-- `Contract` from the source; `level` is a `u8`, modelled as `Nat`
(for a `u8` value Rust's `Display` prints the decimal digits, `Nat.repr`). -/
structure Contract : Type where
  level : Nat
  strain : Strain
  doubling : Doubling
deriving DecidableEq

/-- `Display for Contract` from the source: `write!(f, "\x7b\x7d\x7b\x7d\x7b\x7d", level, strain-match, doubling-match)`. -/
def Contract.render (self : Contract) : String :=
  Nat.repr self.level ++
    (match self.strain with
      | Strain.NoTrump => "NT"
      | Strain.Suit Suit.Spades => "S"
      | Strain.Suit Suit.Hearts => "H"
      | Strain.Suit Suit.Diamonds => "D"
      | Strain.Suit Suit.Clubs => "C") ++
    (match self.doubling with
      | Doubling.Undoubled => ""
      | Doubling.Doubled => "x"
      | Doubling.Redoubled => "xx")

/-- Follows the spec's words (§6): rendering is the concatenation of the
level, the strain code ("NT" for NoTrump, "S"/"H"/"D"/"C" for the suits),
and the doubling suffix ("" / "x" / "xx"). -/
def strainCodeSpec (s : Strain) : String :=
  match s with
  | Strain.NoTrump => "NT"
  | Strain.Suit Suit.Spades => "S"
  | Strain.Suit Suit.Hearts => "H"
  | Strain.Suit Suit.Diamonds => "D"
  | Strain.Suit Suit.Clubs => "C"

/-- Follows the spec's words (§6): the doubling suffix. -/
def doublingSuffixSpec (d : Doubling) : String :=
  match d with
  | Doubling.Undoubled => ""
  | Doubling.Doubled => "x"
  | Doubling.Redoubled => "xx"

/-- Follows the spec's words (§6): `<level><strain-code><doubling-suffix>`. -/
def Contract.renderSpec (self : Contract) : String :=
  Nat.repr self.level ++ strainCodeSpec self.strain ++ doublingSuffixSpec self.doubling

/-! ## Claim C5: per-dimension containers, `new` and `map` -/

/-- C5: for every per-dimension container type (PerSuit, PerSeat, PerStrain,
PerSide) and every value `v`, indexing the container built by `new v` with any
key of its enumeration returns `v`; and for every container `c`, function `f`
and key `k`, `(c.map f).index k = f (c.index k)`.  (`PerStrain.map` is
modelled from the spec; the source defines no `map` for `PerStrain`.) -/
theorem per_dimension_new_and_map :
    ∀ (T S : Type) (v : T) (f : T → S),
      (∀ k : Suit, (PerSuit.new v).index k = v) ∧
      (∀ k : Seat, (PerSeat.new v).index k = v) ∧
      (∀ k : Strain, (PerStrain.new v).index k = v) ∧
      (∀ k : Side, (PerSide.new v).index k = v) ∧
      (∀ (c : PerSuit T) (k : Suit), (c.map f).index k = f (c.index k)) ∧
      (∀ (c : PerSeat T) (k : Seat), (c.map f).index k = f (c.index k)) ∧
      (∀ (c : PerStrain T) (k : Strain), (c.map f).index k = f (c.index k)) ∧
      (∀ (c : PerSide T) (k : Side), (c.map f).index k = f (c.index k)) := by
  intro T S v f
  refine ⟨?_, ?_, ?_, ?_, ?_, ?_, ?_, ?_⟩
  · intro k; cases k <;> rfl
  · intro k; cases k <;> rfl
  · intro k; cases k with
    | NoTrump => rfl
    | Suit s => cases s <;> rfl
  · intro k; cases k <;> rfl
  · intro c k; cases k <;> rfl
  · intro c k; cases k <;> rfl
  · intro c k; cases k with
    | NoTrump => rfl
    | Suit s => cases s <;> rfl
  · intro c k; cases k <;> rfl

/-! ## Claim C6: seat rotation is a 4-element cyclic group -/

/-- C6: for every seat `s`, `s.next ≠ s`, applying `next` four times returns
`s`, `partner` equals `next` twice and is an involution, and `rho` is the
inverse of `next`, equal to `next` applied three times. -/
theorem seat_cyclic_group :
    ∀ s : Seat,
      s.next ≠ s ∧
      s.next.next.next.next = s ∧
      s.partner = s.next.next ∧
      s.partner.partner = s ∧
      s.next.rho = s ∧
      s.rho.next = s ∧
      s.rho = s.next.next.next := by
  decide

/-! ## Claim C7: `relation_to` classifies seats exhaustively and exclusively -/

/-- C7: `s.relation_to s = Me` for every seat; for distinct seats `a`, `b`
the relation is exactly one of LHO/Partner/RHO, being LHO iff `a = b.next`,
Partner iff `a = b.partner`, RHO otherwise, and RHO coincides with
`a = b.rho`. -/
theorem relation_to_classifies (a b : Seat) (hab : a ≠ b) :
    a.relation_to a = SeatRelation.Me ∧
    a.relation_to b ≠ SeatRelation.Me ∧
    (a.relation_to b = SeatRelation.LHO ↔ a = b.next) ∧
    (a.relation_to b = SeatRelation.Partner ↔ a = b.partner) ∧
    (a.relation_to b = SeatRelation.RHO ↔ (a ≠ b.next ∧ a ≠ b.partner)) ∧
    (a.relation_to b = SeatRelation.RHO ↔ a = b.rho) := by
  revert a b hab
  decide

/-- Witness for C7 at `a = North`, `b = East`. -/
theorem relation_to_classifies_witness :
    Seat.North ≠ Seat.East ∧
    (Seat.North.relation_to Seat.North = SeatRelation.Me ∧
     Seat.North.relation_to Seat.East ≠ SeatRelation.Me ∧
     (Seat.North.relation_to Seat.East = SeatRelation.LHO ↔ Seat.North = Seat.East.next) ∧
     (Seat.North.relation_to Seat.East = SeatRelation.Partner ↔ Seat.North = Seat.East.partner) ∧
     (Seat.North.relation_to Seat.East = SeatRelation.RHO ↔
       (Seat.North ≠ Seat.East.next ∧ Seat.North ≠ Seat.East.partner)) ∧
     (Seat.North.relation_to Seat.East = SeatRelation.RHO ↔ Seat.North = Seat.East.rho)) :=
  ⟨by decide, relation_to_classifies Seat.North Seat.East (by decide)⟩

/-! ## Claim C8: suit and strain orders -/

/-- C8: `Suit.cmp` is the total order Spades > Hearts > Diamonds > Clubs
(reflexive equality, antisymmetric flip, transitive, with the bridge-specific
chain), and `Strain.cmp` places NoTrump strictly above every suit-wrapped
strain while comparing suit-wrapped strains exactly as their suits;
`strainFromSuit` is the lossless injection making the orders agree. -/
theorem suit_strain_order :
    ∀ (s t u a b : Suit),
      (Suit.cmp s t = Ordering.eq ↔ s = t) ∧
      (Suit.cmp s t = Ordering.gt ↔ Suit.cmp t s = Ordering.lt) ∧
      (Suit.cmp s t = Ordering.gt → Suit.cmp t u = Ordering.gt →
        Suit.cmp s u = Ordering.gt) ∧
      Suit.cmp Suit.Spades Suit.Hearts = Ordering.gt ∧
      Suit.cmp Suit.Hearts Suit.Diamonds = Ordering.gt ∧
      Suit.cmp Suit.Diamonds Suit.Clubs = Ordering.gt ∧
      Strain.cmp Strain.NoTrump (Strain.Suit s) = Ordering.gt ∧
      Strain.cmp (Strain.Suit s) Strain.NoTrump = Ordering.lt ∧
      Strain.cmp Strain.NoTrump Strain.NoTrump = Ordering.eq ∧
      Strain.cmp (Strain.Suit s) (Strain.Suit t) = Suit.cmp s t ∧
      (strainFromSuit a = strainFromSuit b → a = b) ∧
      strainFromSuit s = Strain.Suit s ∧
      Strain.cmp (strainFromSuit s) (strainFromSuit t) = Suit.cmp s t := by
  decide

/-- Witness for C8 at `s,t,u = Spades,Hearts,Diamonds` (discharging the
transitivity antecedents) and `a = b = Clubs` (discharging the injectivity
antecedent). -/
theorem suit_strain_order_witness :
    (Suit.cmp Suit.Spades Suit.Hearts = Ordering.eq ↔ Suit.Spades = Suit.Hearts) ∧
    (Suit.cmp Suit.Spades Suit.Hearts = Ordering.gt ↔
      Suit.cmp Suit.Hearts Suit.Spades = Ordering.lt) ∧
    Suit.cmp Suit.Spades Suit.Hearts = Ordering.gt ∧
    Suit.cmp Suit.Hearts Suit.Diamonds = Ordering.gt ∧
    Suit.cmp Suit.Spades Suit.Diamonds = Ordering.gt ∧
    Strain.cmp Strain.NoTrump (Strain.Suit Suit.Spades) = Ordering.gt ∧
    Strain.cmp (Strain.Suit Suit.Spades) Strain.NoTrump = Ordering.lt ∧
    Strain.cmp (Strain.Suit Suit.Spades) (Strain.Suit Suit.Hearts) =
      Suit.cmp Suit.Spades Suit.Hearts ∧
    strainFromSuit Suit.Clubs = strainFromSuit Suit.Clubs ∧
    Suit.Clubs = Suit.Clubs ∧
    Strain.cmp (strainFromSuit Suit.Spades) (strainFromSuit Suit.Hearts) =
      Suit.cmp Suit.Spades Suit.Hearts := by
  have h := suit_strain_order Suit.Spades Suit.Hearts Suit.Diamonds Suit.Clubs Suit.Clubs
  exact ⟨h.1, h.2.1, by decide, by decide, h.2.2.1 (by decide) (by decide),
    h.2.2.2.2.2.2.1, h.2.2.2.2.2.2.2.1, h.2.2.2.2.2.2.2.2.2.1, rfl,
    h.2.2.2.2.2.2.2.2.2.2.1 rfl, h.2.2.2.2.2.2.2.2.2.2.2.2⟩

/-! ## Claim C9: the textual rendering of a contract -/

/-- C9: every contract renders as the concatenation of the level, the strain
code ("NT" / "S" / "H" / "D" / "C") and the doubling suffix ("" / "x" /
"xx"); in particular `4NT`, `3Sx` and `7Cxx`. -/
theorem contract_render :
    (∀ c : Contract, c.render = c.renderSpec) ∧
    (Contract.mk 4 Strain.NoTrump Doubling.Undoubled).render = "4NT" ∧
    (Contract.mk 3 (Strain.Suit Suit.Spades) Doubling.Doubled).render = "3Sx" ∧
    (Contract.mk 7 (Strain.Suit Suit.Clubs) Doubling.Redoubled).render = "7Cxx" := by
  refine ⟨?_, by decide, by decide, by decide⟩
  intro c
  cases c with
  | mk level strain doubling =>
    cases strain with
    | NoTrump => cases doubling <;> rfl
    | Suit s => cases s <;> cases doubling <;> rfl

/-! ## Lemmas about the bitset primitives -/

/-- `contains` reads the bit at position `rank % 32`. -/
theorem Holding.contains_eq_testBit (h : Holding) (r : Nat) :
    h.contains r = h.bits.testBit (r % 32) := by
  show (h.bits &&& (1 <<< (r % 32)) != 0) = _
  rw [Nat.shiftLeft_eq, one_mul, Nat.and_two_pow]
  cases hb : h.bits.testBit (r % 32)
  · simp
  · simp [(Nat.two_pow_pos (r % 32)).ne']

/-- For in-domain ranks the mod-32 masking is invisible. -/
theorem Holding.contains_eq_testBit_of_lt (h : Holding) {r : Nat} (hr : r < 32) :
    h.contains r = h.bits.testBit r := by
  rw [h.contains_eq_testBit r, Nat.mod_eq_of_lt hr]

/-- Behaviour of the front-scanning loop, by induction on the fuel: the
result is at least the start, stays within the domain bound 15, skips only
unheld ranks, and lands on a held rank unless it hit 15. -/
theorem frontScan_spec (h : Holding) :
    ∀ fuel f, 15 - f ≤ fuel →
      f ≤ frontScan h fuel f ∧
      (f ≤ 15 → frontScan h fuel f ≤ 15) ∧
      (∀ j, f ≤ j → j < frontScan h fuel f → h.contains j = false) ∧
      (frontScan h fuel f < 15 → h.contains (frontScan h fuel f) = true) := by
  intro fuel
  induction fuel with
  | zero =>
    intro f hf
    simp only [frontScan]
    exact ⟨Nat.le_refl f, fun h15 => h15, fun j h1 h2 => absurd h2 (by omega),
      fun hlt => absurd hlt (by omega)⟩
  | succ fuel ih =>
    intro f hf
    simp only [frontScan]
    split
    case isTrue hc =>
      rw [Bool.and_eq_true, decide_eq_true_eq, Bool.not_eq_true'] at hc
      obtain ⟨h1, h2, h3, h4⟩ := ih (f + 1) (by omega)
      refine ⟨by omega, fun _ => h2 (by omega), ?_, h4⟩
      intro j hj1 hj2
      rcases Nat.eq_or_lt_of_le hj1 with hje | hjlt
      · rw [← hje]; exact hc.2
      · exact h3 j (by omega) hj2
    case isFalse hc =>
      simp only [Bool.and_eq_true, decide_eq_true_eq, Bool.not_eq_true', not_and] at hc
      refine ⟨Nat.le_refl f, fun h15 => h15, fun j h1 h2 => absurd h2 (by omega), ?_⟩
      intro hlt
      cases hcf : h.contains f
      · exact absurd hcf (hc hlt)
      · rfl

/-- `frontInit` only moves the cursor up. -/
theorem Holding.frontInit_ge (h : Holding) (f : Nat) : f ≤ h.frontInit f :=
  (frontScan_spec h (15 - f) f (Nat.le_refl _)).1

/-- `frontInit` stays within the scanned domain. -/
theorem Holding.frontInit_le_15 (h : Holding) {f : Nat} (hf : f ≤ 15) :
    h.frontInit f ≤ 15 :=
  (frontScan_spec h (15 - f) f (Nat.le_refl _)).2.1 hf

/-- Ranks strictly below the settled front cursor are not held. -/
theorem Holding.frontInit_skip (h : Holding) {f j : Nat} (h1 : f ≤ j)
    (h2 : j < h.frontInit f) : h.contains j = false :=
  (frontScan_spec h (15 - f) f (Nat.le_refl _)).2.2.1 j h1 h2

/-- If the settled front cursor is inside the domain, it points at a held rank. -/
theorem Holding.frontInit_mem (h : Holding) {f : Nat} (hlt : h.frontInit f < 15) :
    h.contains (h.frontInit f) = true :=
  (frontScan_spec h (15 - f) f (Nat.le_refl _)).2.2.2 hlt

/-- Behaviour of the back-scanning loop, by induction on the fuel. -/
theorem backScan_spec (h : Holding) :
    ∀ fuel b, b ≤ fuel →
      backScan h fuel b ≤ b ∧
      (1 ≤ b → 1 ≤ backScan h fuel b) ∧
      (∀ j, backScan h fuel b < j → j ≤ b → h.contains j = false) ∧
      (1 < backScan h fuel b → h.contains (backScan h fuel b) = true) := by
  intro fuel
  induction fuel with
  | zero =>
    intro b hb
    simp only [backScan]
    exact ⟨Nat.le_refl b, fun h1 => h1, fun j h1 h2 => absurd h2 (by omega),
      fun hlt => absurd hlt (by omega)⟩
  | succ fuel ih =>
    intro b hb
    simp only [backScan]
    split
    case isTrue hc =>
      rw [Bool.and_eq_true, decide_eq_true_eq, Bool.not_eq_true'] at hc
      obtain ⟨h1, h2, h3, h4⟩ := ih (b - 1) (by omega)
      refine ⟨by omega, fun _ => by have := h2 (by omega); omega, ?_, h4⟩
      intro j hj1 hj2
      rcases Nat.eq_or_lt_of_le hj2 with hje | hjlt
      · rw [hje]; exact hc.2
      · exact h3 j hj1 (by omega)
    case isFalse hc =>
      simp only [Bool.and_eq_true, decide_eq_true_eq, Bool.not_eq_true', not_and] at hc
      refine ⟨Nat.le_refl b, fun h1 => h1, fun j h1 h2 => absurd h1 (by omega), ?_⟩
      intro hlt
      cases hcb : h.contains b
      · exact absurd hcb (hc hlt)
      · rfl

/-- `backInit` only moves the cursor down. -/
theorem Holding.backInit_le (h : Holding) (b : Nat) : h.backInit b ≤ b :=
  (backScan_spec h b b (Nat.le_refl _)).1

/-- `backInit` never drops below 1. -/
theorem Holding.backInit_pos (h : Holding) {b : Nat} (hb : 1 ≤ b) :
    1 ≤ h.backInit b :=
  (backScan_spec h b b (Nat.le_refl _)).2.1 hb

/-- Ranks strictly above the settled back cursor (within the scan) are not held. -/
theorem Holding.backInit_skip (h : Holding) {b j : Nat} (h1 : h.backInit b < j)
    (h2 : j ≤ b) : h.contains j = false :=
  (backScan_spec h b b (Nat.le_refl _)).2.2.1 j h1 h2

/-- If the settled back cursor is above 1, it points at a held rank. -/
theorem Holding.backInit_mem (h : Holding) {b : Nat} (hlt : 1 < h.backInit b) :
    h.contains (h.backInit b) = true :=
  (backScan_spec h b b (Nat.le_refl _)).2.2.2 hlt

/-! ## Range and filter bookkeeping -/

/-- Dropping an all-false bottom segment from a filtered interval. -/
theorem filter_range'_drop_low (p : Nat → Bool) :
    ∀ (g a n : Nat), (∀ j, a ≤ j → j < a + g → p j = false) →
      (List.range' a n).filter p = (List.range' (a + g) (n - g)).filter p := by
  intro g
  induction g with
  | zero => intro a n _; simp
  | succ g ih =>
    intro a n hskip
    cases n with
    | zero => simp
    | succ n =>
      rw [List.range'_succ, List.filter_cons_of_neg (by simp [hskip a (Nat.le_refl a) (by omega)])]
      have h1 : a + (g + 1) = (a + 1) + g := by omega
      have h2 : n + 1 - (g + 1) = n - g := by omega
      rw [h1, h2]
      exact ih (a + 1) n (fun j hj1 hj2 => hskip j (by omega) (by omega))

/-- Dropping an all-false top segment from a filtered interval. -/
theorem filter_range'_drop_high (p : Nat → Bool) :
    ∀ (g a c : Nat), (∀ j, c < j → j ≤ c + g → p j = false) →
      (List.range' a (c + g + 1 - a)).filter p = (List.range' a (c + 1 - a)).filter p := by
  intro g
  induction g with
  | zero => intro a c _; rfl
  | succ g ih =>
    intro a c hskip
    by_cases ha : a ≤ c + g + 1
    · have h1 : c + (g + 1) + 1 - a = (c + g + 1 - a) + 1 := by omega
      rw [h1, List.range'_1_concat, List.filter_append]
      have h2 : a + (c + g + 1 - a) = c + g + 1 := by omega
      rw [h2]
      have hlast : p (c + g + 1) = false := hskip _ (by omega) (by omega)
      have hsingle : List.filter p [c + g + 1] = [] := by simp [hlast]
      rw [hsingle, List.append_nil]
      exact ih a c (fun j hj1 hj2 => hskip j hj1 (by omega))
    · have h1 : c + (g + 1) + 1 - a = 0 := by omega
      have h2 : c + 1 - a = 0 := by omega
      rw [h1, h2]

/-! ## Correctness of the forward and backward traversals -/

/-- A full forward traversal from a settled front cursor yields exactly the
held ranks of the remaining interval, in ascending order. -/
theorem fwdRun_correct (h : Holding) (b : Nat) (hb : b ≤ 14) :
    ∀ fuel f, b + 1 - f ≤ fuel → (f ≤ b → h.contains f = true) →
      fwdRun h b fuel f = (List.range' f (b + 1 - f)).filter (fun r => h.contains r) := by
  intro fuel
  induction fuel with
  | zero =>
    intro f hfuel _
    have h0 : b + 1 - f = 0 := by omega
    rw [h0]
    rfl
  | succ fuel ih =>
    intro f hfuel hcont
    by_cases hbf : b < f
    · have h0 : b + 1 - f = 0 := by omega
      rw [h0]
      simp [fwdRun, hbf]
    · have hcf : h.contains f = true := hcont (by omega)
      have hstep : fwdRun h b (fuel + 1) f = f :: fwdRun h b fuel (h.frontInit (f + 1)) := by
        simp [fwdRun, hbf]
      have hF1 : f + 1 ≤ h.frontInit (f + 1) := h.frontInit_ge (f + 1)
      have hFb : h.frontInit (f + 1) ≤ b → h.contains (h.frontInit (f + 1)) = true :=
        fun hle => h.frontInit_mem (by omega)
      have ihr := ih (h.frontInit (f + 1)) (by omega) hFb
      have hsplit : b + 1 - f = (b - f) + 1 := by omega
      rw [hstep, ihr, hsplit, List.range'_succ, List.filter_cons_of_pos hcf]
      have hdrop := filter_range'_drop_low (fun r => h.contains r)
        (h.frontInit (f + 1) - (f + 1)) (f + 1) (b - f)
        (fun j hj1 hj2 => h.frontInit_skip hj1 (by omega))
      have h3 : (f + 1) + (h.frontInit (f + 1) - (f + 1)) = h.frontInit (f + 1) := by omega
      have h4 : b - f - (h.frontInit (f + 1) - (f + 1)) = b + 1 - h.frontInit (f + 1) := by
        omega
      rw [h3, h4] at hdrop
      rw [hdrop]

/-- A full backward traversal from a settled back cursor yields exactly the
held ranks of the remaining interval, in descending order. -/
theorem bwdRun_correct (h : Holding) (f : Nat) (hf : 2 ≤ f) :
    ∀ fuel b, b + 1 - f ≤ fuel → (f ≤ b → h.contains b = true) →
      bwdRun h f fuel b = ((List.range' f (b + 1 - f)).filter (fun r => h.contains r)).reverse := by
  intro fuel
  induction fuel with
  | zero =>
    intro b hfuel _
    have h0 : b + 1 - f = 0 := by omega
    rw [h0]
    rfl
  | succ fuel ih =>
    intro b hfuel hcont
    by_cases hbf : b < f
    · have h0 : b + 1 - f = 0 := by omega
      rw [h0]
      simp [bwdRun, hbf]
    · have hcb : h.contains b = true := hcont (by omega)
      have hstep : bwdRun h f (fuel + 1) b = b :: bwdRun h f fuel (h.backInit (b - 1)) := by
        simp [bwdRun, hbf]
      have hB1 : h.backInit (b - 1) ≤ b - 1 := h.backInit_le (b - 1)
      have hBf : f ≤ h.backInit (b - 1) → h.contains (h.backInit (b - 1)) = true :=
        fun hle => h.backInit_mem (by omega)
      have ihr := ih (h.backInit (b - 1)) (by omega) hBf
      have hsplit : b + 1 - f = (b - f) + 1 := by omega
      have h2 : f + (b - f) = b := by omega
      have hdrop := filter_range'_drop_high (fun r => h.contains r)
        ((b - 1) - h.backInit (b - 1)) f (h.backInit (b - 1))
        (fun j hj1 hj2 => h.backInit_skip hj1 (by omega))
      have h3 : h.backInit (b - 1) + ((b - 1) - h.backInit (b - 1)) + 1 - f = b - f := by omega
      rw [h3] at hdrop
      have hsingle : List.filter (fun r => h.contains r) [b] = [b] := by simp [hcb]
      rw [hstep, ihr, hsplit, List.range'_1_concat, h2, List.filter_append, hsingle,
        List.reverse_append, hdrop]
      simp

/-- The ascending traversal of `iter` is the filter of the domain `[2,14]`
by membership. -/
theorem Holding.ascList_eq_filter (h : Holding) :
    h.ascList = (List.range' 2 13).filter (fun r => h.contains r) := by
  have hF2 : 2 ≤ h.frontInit 2 := h.frontInit_ge 2
  have hF15 : h.frontInit 2 ≤ 15 := h.frontInit_le_15 (by norm_num)
  have hB14 : h.backInit 14 ≤ 14 := h.backInit_le 14
  have hrun := fwdRun_correct h (h.backInit 14) hB14 (h.backInit 14 + 1 - h.frontInit 2)
    (h.frontInit 2) (Nat.le_refl _) (fun hle => h.frontInit_mem (by omega))
  show fwdRun h (h.backInit 14) (h.backInit 14 + 1 - h.frontInit 2) (h.frontInit 2) = _
  rw [hrun]
  have hlow := filter_range'_drop_low (fun r => h.contains r) (h.frontInit 2 - 2) 2 13
    (fun j hj1 hj2 => h.frontInit_skip hj1 (by omega))
  have e1 : 2 + (h.frontInit 2 - 2) = h.frontInit 2 := by omega
  have e2 : 13 - (h.frontInit 2 - 2) = 15 - h.frontInit 2 := by omega
  rw [e1, e2] at hlow
  have hhigh := filter_range'_drop_high (fun r => h.contains r) (14 - h.backInit 14)
    (h.frontInit 2) (h.backInit 14)
    (fun j hj1 hj2 => h.backInit_skip hj1 (by omega))
  have e3 : h.backInit 14 + (14 - h.backInit 14) + 1 - h.frontInit 2 = 15 - h.frontInit 2 := by
    omega
  rw [e3] at hhigh
  rw [hlow, hhigh]

/-- The descending traversal of `iter` is the reverse of the ascending one. -/
theorem Holding.descList_eq_filter (h : Holding) :
    h.descList = ((List.range' 2 13).filter (fun r => h.contains r)).reverse := by
  have hF2 : 2 ≤ h.frontInit 2 := h.frontInit_ge 2
  have hF15 : h.frontInit 2 ≤ 15 := h.frontInit_le_15 (by norm_num)
  have hB14 : h.backInit 14 ≤ 14 := h.backInit_le 14
  have hrun := bwdRun_correct h (h.frontInit 2) hF2 (h.backInit 14 + 1 - h.frontInit 2)
    (h.backInit 14) (Nat.le_refl _) (fun hle => h.backInit_mem (by omega))
  show bwdRun h (h.frontInit 2) (h.backInit 14 + 1 - h.frontInit 2) (h.backInit 14) = _
  rw [hrun]
  have hlow := filter_range'_drop_low (fun r => h.contains r) (h.frontInit 2 - 2) 2 13
    (fun j hj1 hj2 => h.frontInit_skip hj1 (by omega))
  have e1 : 2 + (h.frontInit 2 - 2) = h.frontInit 2 := by omega
  have e2 : 13 - (h.frontInit 2 - 2) = 15 - h.frontInit 2 := by omega
  rw [e1, e2] at hlow
  have hhigh := filter_range'_drop_high (fun r => h.contains r) (14 - h.backInit 14)
    (h.frontInit 2) (h.backInit 14)
    (fun j hj1 hj2 => h.backInit_skip hj1 (by omega))
  have e3 : h.backInit 14 + (14 - h.backInit 14) + 1 - h.frontInit 2 = 15 - h.frontInit 2 := by
    omega
  rw [e3] at hhigh
  rw [hlow, hhigh]

/-- The ascending traversal depends only on membership over `[2,14]`. -/
theorem Holding.ascList_congr {h₁ h₂ : Holding}
    (hc : ∀ r, 2 ≤ r → r ≤ 14 → h₁.contains r = h₂.contains r) :
    h₁.ascList = h₂.ascList := by
  rw [h₁.ascList_eq_filter, h₂.ascList_eq_filter]
  refine List.filter_congr ?_
  intro a ha
  rw [List.mem_range'_1] at ha
  exact hc a ha.1 (by omega)

/-- The descending traversal depends only on membership over `[2,14]`. -/
theorem Holding.descList_congr {h₁ h₂ : Holding}
    (hc : ∀ r, 2 ≤ r → r ≤ 14 → h₁.contains r = h₂.contains r) :
    h₁.descList = h₂.descList := by
  rw [h₁.descList_eq_filter, h₂.descList_eq_filter]
  congr 1
  refine List.filter_congr ?_
  intro a ha
  rw [List.mem_range'_1] at ha
  exact hc a ha.1 (by omega)

/-- When all set bits lie in `[2,14]`, the held ranks are exactly the
membership filter of the domain `[2,14]`. -/
theorem Holding.heldRanks_eq_filter (h : Holding)
    (hbits : ∀ i, h.bits.testBit i = true → 2 ≤ i ∧ i ≤ 14) :
    h.heldRanks = (List.range' 2 13).filter (fun r => h.contains r) := by
  show (List.range 32).filter (fun i => h.bits.testBit i) = _
  have hsplit : List.range 32 = List.range' 0 2 ++ (List.range' 2 13 ++ List.range' 15 17) := by
    rfl
  rw [hsplit, List.filter_append, List.filter_append]
  have h1 : (List.range' 0 2).filter (fun i => h.bits.testBit i) = [] := by
    refine List.filter_eq_nil_iff.mpr ?_
    intro a ha
    rw [List.mem_range'_1] at ha
    intro ht
    have := hbits a ht
    omega
  have h3 : (List.range' 15 17).filter (fun i => h.bits.testBit i) = [] := by
    refine List.filter_eq_nil_iff.mpr ?_
    intro a ha
    rw [List.mem_range'_1] at ha
    intro ht
    have := hbits a ht
    omega
  rw [h1, h3, List.nil_append, List.append_nil]
  refine List.filter_congr ?_
  intro a ha
  rw [List.mem_range'_1] at ha
  exact (h.contains_eq_testBit_of_lt (by omega)).symm

/-! ## Bits of a holding built by folding `add` -/

/-- Folding `add` over a list sets exactly the bits at the elements'
positions (mod 32) in addition to the accumulator's bits. -/
theorem foldl_add_testBit (xs : List Nat) :
    ∀ (h : Holding) (i : Nat),
      (xs.foldl Holding.add h).bits.testBit i =
        (h.bits.testBit i || xs.any (fun x => decide (x % 32 = i))) := by
  induction xs with
  | nil => intro h i; simp
  | cons x xs ih =>
    intro h i
    rw [List.foldl_cons, ih]
    have hx : (h.add x).bits = h.bits ||| 2 ^ (x % 32) := by
      show h.bits ||| (1 <<< (x % 32)) = _
      rw [Nat.shiftLeft_eq, one_mul]
    rw [hx, Nat.testBit_or, Nat.testBit_two_pow]
    simp [Bool.or_assoc]

/-- Membership of a holding collected from a list of in-range ranks. -/
theorem from_iter_contains (xs : List Nat) (hxs : ∀ x ∈ xs, 2 ≤ x ∧ x ≤ 14)
    {r : Nat} (hr2 : 2 ≤ r) (hr14 : r ≤ 14) :
    (Holding.from_iter xs).contains r = true ↔ r ∈ xs := by
  rw [Holding.contains_eq_testBit_of_lt _ (by omega)]
  show (xs.foldl Holding.add Holding.new).bits.testBit r = true ↔ _
  rw [foldl_add_testBit]
  have h0 : (Holding.new).bits.testBit r = false := by
    show Nat.testBit 0 r = false
    exact Nat.zero_testBit r
  rw [h0, Bool.false_or, List.any_eq_true]
  constructor
  · rintro ⟨x, hx, hxr⟩
    rw [decide_eq_true_eq] at hxr
    have hb := hxs x hx
    have hxeq : x = r := by omega
    rw [← hxeq]
    exact hx
  · intro hr
    exact ⟨r, hr, by rw [decide_eq_true_eq]; omega⟩

/-! ## Claim C1: ascending and descending iteration -/

/-- All set bits of `292 = 0b100100100` lie in `[2,14]`. -/
theorem testBit_292_in_range : ∀ i, Nat.testBit 292 i = true → 2 ≤ i ∧ i ≤ 14 := by
  intro i hi
  rcases Nat.lt_or_ge i 9 with hlt | hge
  · have hball : ∀ j, j < 9 → Nat.testBit 292 j = true → 2 ≤ j ∧ j ≤ 14 := by decide
    exact hball i hlt hi
  · exfalso
    have h2 : (292 : Nat) < 2 ^ i :=
      lt_of_lt_of_le (by norm_num) (Nat.pow_le_pow_right (by norm_num) hge)
    rw [Nat.testBit_lt_two_pow h2] at hi
    exact Bool.false_ne_true hi

/-- C1: for every holding whose set ranks all lie in `[2,14]`, the forward
traversal of `iter` yields exactly the held ranks ascending, the backward
traversal yields them descending, the reverse of the ascending sequence is
the descending sequence, and `Holding(0b100100100)` yields `[2,5,8]` forward
and `[8,5,2]` backward. -/
theorem holding_iter_asc_desc (h : Holding)
    (hbits : ∀ i, h.bits.testBit i = true → 2 ≤ i ∧ i ≤ 14) :
    h.ascList = h.heldRanks ∧
    h.descList = h.heldRanks.reverse ∧
    h.ascList.reverse = h.descList ∧
    (Holding.mk 292).ascList = [2, 5, 8] ∧
    (Holding.mk 292).descList = [8, 5, 2] := by
  have h1 := h.ascList_eq_filter
  have h2 := h.descList_eq_filter
  have h3 := h.heldRanks_eq_filter hbits
  exact ⟨by rw [h1, h3], by rw [h2, h3], by rw [h1, h2], by decide, by decide⟩

/-- Witness for C1 at `Holding(0b100100100)`. -/
theorem holding_iter_asc_desc_witness :
    (∀ i, Nat.testBit 292 i = true → 2 ≤ i ∧ i ≤ 14) ∧
    ((Holding.mk 292).ascList = (Holding.mk 292).heldRanks ∧
     (Holding.mk 292).descList = (Holding.mk 292).heldRanks.reverse ∧
     (Holding.mk 292).ascList.reverse = (Holding.mk 292).descList ∧
     (Holding.mk 292).ascList = [2, 5, 8] ∧
     (Holding.mk 292).descList = [8, 5, 2]) :=
  ⟨testBit_292_in_range, holding_iter_asc_desc (Holding.mk 292) testBit_292_in_range⟩

/-! ## Claim C2: `count` versus the length of the iteration -/

/-- C2 counterexample: `Holding(1)` (bit 0 set) has `count() = 1`, but its
iterator yields nothing, so for the raw claim "for every Holding value" the
count differs from the traversal length. -/
theorem count_ne_iter_length_at_one :
    ¬ ((Holding.mk 1).count = (Holding.mk 1).ascList.length) := by
  decide

/-- C2 (amended): for every holding whose set bits all lie in `[2,14]` —
every holding producible by the defined operations on in-range ranks —
`count` equals the length of the full ascending traversal of `iter`. -/
theorem count_eq_iter_length (h : Holding)
    (hbits : ∀ i, h.bits.testBit i = true → 2 ≤ i ∧ i ≤ 14) :
    h.count = h.ascList.length := by
  show (List.range 32).countP (fun i => h.bits.testBit i) = _
  rw [List.countP_eq_length_filter]
  show h.heldRanks.length = _
  rw [h.heldRanks_eq_filter hbits, h.ascList_eq_filter]

/-- Witness for the amended C2 at `Holding(0b100100100)`. -/
theorem count_eq_iter_length_witness :
    (∀ i, Nat.testBit 292 i = true → 2 ≤ i ∧ i ≤ 14) ∧
    (Holding.mk 292).count = (Holding.mk 292).ascList.length :=
  ⟨testBit_292_in_range, count_eq_iter_length (Holding.mk 292) testBit_292_in_range⟩

/-! ## Claim C3: collecting a sequence of ranks into a holding -/

/-- C3: for every finite sequence of ranks in `[2,14]` (unordered, possibly
with duplicates), collecting it into a holding and reading it back through
the ascending traversal of `iter` yields a strictly sorted list without
duplicates whose members are exactly the members of the input. -/
theorem from_iter_reads_back (xs : List Nat) (hxs : ∀ x ∈ xs, 2 ≤ x ∧ x ≤ 14) :
    (Holding.from_iter xs).ascList.Sorted (· < ·) ∧
    (Holding.from_iter xs).ascList.Nodup ∧
    (∀ r, r ∈ (Holding.from_iter xs).ascList ↔ r ∈ xs) := by
  have hsorted : (Holding.from_iter xs).ascList.Sorted (· < ·) := by
    rw [Holding.ascList_eq_filter]
    exact List.Pairwise.sublist (List.filter_sublist _) (List.pairwise_lt_range' 2 13)
  refine ⟨hsorted, hsorted.nodup, ?_⟩
  intro r
  rw [Holding.ascList_eq_filter, List.mem_filter, List.mem_range'_1]
  constructor
  · rintro ⟨⟨hr2, hr15⟩, hc⟩
    exact (from_iter_contains xs hxs hr2 (by omega)).mp hc
  · intro hr
    have hx := hxs r hr
    exact ⟨⟨hx.1, by omega⟩, (from_iter_contains xs hxs hx.1 hx.2).mpr hr⟩

/-- Witness for C3 at the unordered, duplicated input `[5, 2, 5, 14]`. -/
theorem from_iter_reads_back_witness :
    (∀ x ∈ [5, 2, 5, 14], 2 ≤ x ∧ x ≤ 14) ∧
    ((Holding.from_iter [5, 2, 5, 14]).ascList.Sorted (· < ·) ∧
     (Holding.from_iter [5, 2, 5, 14]).ascList.Nodup ∧
     (∀ r, r ∈ (Holding.from_iter [5, 2, 5, 14]).ascList ↔ r ∈ [5, 2, 5, 14])) :=
  ⟨by decide, from_iter_reads_back [5, 2, 5, 14] (by decide)⟩

/-! ## Claim C4: out-of-range ranks in `add` and `remove` -/

/-- C4 counterexample: adding the out-of-range rank 0 to the empty holding
changes `count()` from 0 to 1, so `count` does inspect the silently set
out-of-range bit, contrary to the claim. -/
theorem add_out_of_range_changes_count :
    ¬ ((Holding.new.add 0).count = Holding.new.count) := by
  decide

/-- C4 (amended): for every rank whose shift amount `rank % 32` falls outside
`[2,14]` (in release builds Rust masks `u32` shift amounts mod 32), `add` and
`remove` silently set or clear a bit that neither `contains` on in-range
ranks nor the iterator inspects, leaving membership over `[2,14]` and both
traversal orders unchanged; `count`, however, does count such bits. -/
theorem out_of_range_add_remove_inert (h : Holding) (rank : Nat)
    (hrank : ¬ (2 ≤ rank % 32 ∧ rank % 32 ≤ 14)) :
    (∀ r, 2 ≤ r → r ≤ 14 →
      (h.add rank).contains r = h.contains r ∧
      (h.remove rank).contains r = h.contains r) ∧
    (h.add rank).ascList = h.ascList ∧
    (h.remove rank).ascList = h.ascList ∧
    (h.add rank).descList = h.descList ∧
    (h.remove rank).descList = h.descList := by
  have hadd : ∀ r, 2 ≤ r → r ≤ 14 → (h.add rank).contains r = h.contains r := by
    intro r hr2 hr14
    rw [Holding.contains_eq_testBit_of_lt _ (show r < 32 by omega),
      Holding.contains_eq_testBit_of_lt _ (show r < 32 by omega)]
    show (h.bits ||| (1 <<< (rank % 32))).testBit r = _
    rw [Nat.shiftLeft_eq, one_mul, Nat.testBit_or, Nat.testBit_two_pow]
    have hne : ¬ (rank % 32 = r) := by omega
    simp [hne]
  have hrem : ∀ r, 2 ≤ r → r ≤ 14 → (h.remove rank).contains r = h.contains r := by
    intro r hr2 hr14
    rw [Holding.contains_eq_testBit_of_lt _ (show r < 32 by omega),
      Holding.contains_eq_testBit_of_lt _ (show r < 32 by omega)]
    show (h.bits &&& ((1 <<< (rank % 32)) ^^^ (2 ^ 32 - 1))).testBit r = _
    rw [Nat.shiftLeft_eq, one_mul, Nat.testBit_and, Nat.testBit_xor, Nat.testBit_two_pow,
      Nat.testBit_two_pow_sub_one]
    have hne : ¬ (rank % 32 = r) := by omega
    have hr32 : r < 32 := by omega
    simp [hne, hr32]
  exact ⟨fun r a b => ⟨hadd r a b, hrem r a b⟩,
    Holding.ascList_congr hadd, Holding.ascList_congr hrem,
    Holding.descList_congr hadd, Holding.descList_congr hrem⟩

/-- Witness for the amended C4 at `Holding(0b100100100)` and rank 20. -/
theorem out_of_range_add_remove_inert_witness :
    (¬ (2 ≤ 20 % 32 ∧ 20 % 32 ≤ 14)) ∧
    ((∀ r, 2 ≤ r → r ≤ 14 →
        ((Holding.mk 292).add 20).contains r = (Holding.mk 292).contains r ∧
        ((Holding.mk 292).remove 20).contains r = (Holding.mk 292).contains r) ∧
      ((Holding.mk 292).add 20).ascList = (Holding.mk 292).ascList ∧
      ((Holding.mk 292).remove 20).ascList = (Holding.mk 292).ascList ∧
      ((Holding.mk 292).add 20).descList = (Holding.mk 292).descList ∧
      ((Holding.mk 292).remove 20).descList = (Holding.mk 292).descList) :=
  ⟨by decide, out_of_range_add_remove_inert (Holding.mk 292) 20 (by decide)⟩

/-! ## The iterator-state invariant under interleaved stepping -/

/-- `iter` establishes the iterator invariant. -/
theorem iter_inv (h : Holding) : IterInv h.iter := by
  refine ⟨h.frontInit_ge 2, h.backInit_pos (by norm_num), h.backInit_le 14,
    h.frontInit_le_15 (by norm_num), ?_⟩
  intro hle
  have hle' : h.frontInit 2 ≤ h.backInit 14 := hle
  have hb := h.backInit_le 14
  have hf := h.frontInit_ge 2
  exact ⟨h.frontInit_mem (by omega), h.backInit_mem (by omega)⟩

/-- Running any interleaving of forward and backward steps preserves the
invariant, only shrinks the window `[front, back]`, and yields each rank
exactly once: the yields are precisely the held ranks of the starting window
that have left the final window. -/
theorem runSteps_spec : ∀ (ds : List Bool) (s : HoldingIterator), IterInv s →
    (runSteps ds s).2.holding = s.holding ∧
    IterInv (runSteps ds s).2 ∧
    s.front ≤ (runSteps ds s).2.front ∧
    (runSteps ds s).2.back ≤ s.back ∧
    (runSteps ds s).1.Nodup ∧
    (∀ r, r ∈ (runSteps ds s).1 ↔
      (s.holding.contains r = true ∧ s.front ≤ r ∧ r ≤ s.back ∧
        (r < (runSteps ds s).2.front ∨ (runSteps ds s).2.back < r))) := by
  intro ds
  induction ds with
  | nil =>
    intro s hinv
    refine ⟨rfl, hinv, Nat.le_refl _, Nat.le_refl _, List.nodup_nil, ?_⟩
    intro r
    constructor
    · intro hmem
      exact absurd hmem (List.not_mem_nil r)
    · rintro ⟨_, h1, h2, h3⟩
      have h3' : r < s.front ∨ s.back < r := h3
      exact absurd h3' (by omega)
  | cons d ds ih =>
    intro s hinv
    obtain ⟨hf2, hb1, hb14, hf15, hends⟩ := hinv
    by_cases hx : s.back < s.front
    case pos =>
      have hstep : (if d then s.next else s.next_back) = (none, s) := by
        cases d <;> simp [HoldingIterator.next, HoldingIterator.next_back, hx]
      have hrun : runSteps (d :: ds) s = runSteps ds s := by
        simp [runSteps, hstep]
      rw [hrun]
      exact ih s ⟨hf2, hb1, hb14, hf15, hends⟩
    case neg =>
      rw [Nat.not_lt] at hx
      obtain ⟨hcf, hcb⟩ := hends hx
      cases d
      case false =>
        have hstep : s.next_back = (some s.back,
            HoldingIterator.mk s.holding s.front (s.holding.backInit (s.back - 1))) := by
          unfold HoldingIterator.next_back
          rw [if_neg (by omega)]
        have hrun1 : (runSteps (false :: ds) s).1 =
            s.back :: (runSteps ds (HoldingIterator.mk s.holding s.front
              (s.holding.backInit (s.back - 1)))).1 := by
          simp [runSteps, hstep]
        have hrun2 : (runSteps (false :: ds) s).2 =
            (runSteps ds (HoldingIterator.mk s.holding s.front
              (s.holding.backInit (s.back - 1)))).2 := by
          simp [runSteps, hstep]
        have hBle : s.holding.backInit (s.back - 1) ≤ s.back - 1 := Holding.backInit_le _ _
        have hBpos : 1 ≤ s.holding.backInit (s.back - 1) :=
          Holding.backInit_pos _ (by omega)
        have hB14 : s.holding.backInit (s.back - 1) ≤ 14 := by omega
        have hinv₁ : IterInv (HoldingIterator.mk s.holding s.front
            (s.holding.backInit (s.back - 1))) := by
          refine ⟨hf2, hBpos, hB14, hf15, ?_⟩
          intro hle
          have hle' : s.front ≤ s.holding.backInit (s.back - 1) := hle
          have hmem : s.holding.contains (s.holding.backInit (s.back - 1)) = true :=
            Holding.backInit_mem s.holding (by omega)
          exact ⟨hcf, hmem⟩
        obtain ⟨hold₁, hinv', hmonf, hmonb, hnd', hmemb⟩ := ih _ hinv₁
        have hmonf' : s.front ≤ (runSteps ds (HoldingIterator.mk s.holding s.front
            (s.holding.backInit (s.back - 1)))).2.front := hmonf
        have hmonb' : (runSteps ds (HoldingIterator.mk s.holding s.front
            (s.holding.backInit (s.back - 1)))).2.back ≤
            s.holding.backInit (s.back - 1) := hmonb
        have hmemb2 : ∀ r, r ∈ (runSteps ds (HoldingIterator.mk s.holding s.front
            (s.holding.backInit (s.back - 1)))).1 ↔
            (s.holding.contains r = true ∧ s.front ≤ r ∧
             r ≤ s.holding.backInit (s.back - 1) ∧
             (r < (runSteps ds (HoldingIterator.mk s.holding s.front
                (s.holding.backInit (s.back - 1)))).2.front ∨
              (runSteps ds (HoldingIterator.mk s.holding s.front
                (s.holding.backInit (s.back - 1)))).2.back < r)) := hmemb
        rw [hrun1, hrun2]
        refine ⟨hold₁, hinv', hmonf', by omega, ?_, ?_⟩
        · rw [List.nodup_cons]
          refine ⟨?_, hnd'⟩
          intro hmem
          obtain ⟨_, _, h2, _⟩ := (hmemb2 _).mp hmem
          omega
        · intro r
          rw [List.mem_cons, hmemb2 r]
          constructor
          · rintro (rfl | ⟨hc, h1, h2, h3⟩)
            · exact ⟨hcb, hx, Nat.le_refl _, by omega⟩
            · exact ⟨hc, h1, by omega, h3⟩
          · rintro ⟨hc, h1, h2, h3⟩
            by_cases hr : r = s.back
            · exact Or.inl hr
            · refine Or.inr ⟨hc, h1, ?_, h3⟩
              by_contra hgt
              push_neg at hgt
              have hfalse := Holding.backInit_skip s.holding hgt (show r ≤ s.back - 1 by omega)
              rw [hfalse] at hc
              exact Bool.false_ne_true hc
      case true =>
        have hstep : s.next = (some s.front,
            HoldingIterator.mk s.holding (s.holding.frontInit (s.front + 1)) s.back) := by
          unfold HoldingIterator.next
          rw [if_neg (by omega)]
        have hrun1 : (runSteps (true :: ds) s).1 =
            s.front :: (runSteps ds (HoldingIterator.mk s.holding
              (s.holding.frontInit (s.front + 1)) s.back)).1 := by
          simp [runSteps, hstep]
        have hrun2 : (runSteps (true :: ds) s).2 =
            (runSteps ds (HoldingIterator.mk s.holding
              (s.holding.frontInit (s.front + 1)) s.back)).2 := by
          simp [runSteps, hstep]
        have hFge : s.front + 1 ≤ s.holding.frontInit (s.front + 1) :=
          Holding.frontInit_ge _ _
        have hF15 : s.holding.frontInit (s.front + 1) ≤ 15 :=
          Holding.frontInit_le_15 _ (by omega)
        have hF2 : 2 ≤ s.holding.frontInit (s.front + 1) := by omega
        have hinv₁ : IterInv (HoldingIterator.mk s.holding
            (s.holding.frontInit (s.front + 1)) s.back) := by
          refine ⟨hF2, hb1, hb14, hF15, ?_⟩
          intro hle
          have hle' : s.holding.frontInit (s.front + 1) ≤ s.back := hle
          have hmem : s.holding.contains (s.holding.frontInit (s.front + 1)) = true :=
            Holding.frontInit_mem s.holding (by omega)
          exact ⟨hmem, hcb⟩
        obtain ⟨hold₁, hinv', hmonf, hmonb, hnd', hmemb⟩ := ih _ hinv₁
        have hmonf' : s.holding.frontInit (s.front + 1) ≤
            (runSteps ds (HoldingIterator.mk s.holding
              (s.holding.frontInit (s.front + 1)) s.back)).2.front := hmonf
        have hmonb' : (runSteps ds (HoldingIterator.mk s.holding
            (s.holding.frontInit (s.front + 1)) s.back)).2.back ≤ s.back := hmonb
        have hmemb2 : ∀ r, r ∈ (runSteps ds (HoldingIterator.mk s.holding
            (s.holding.frontInit (s.front + 1)) s.back)).1 ↔
            (s.holding.contains r = true ∧ s.holding.frontInit (s.front + 1) ≤ r ∧
             r ≤ s.back ∧
             (r < (runSteps ds (HoldingIterator.mk s.holding
                (s.holding.frontInit (s.front + 1)) s.back)).2.front ∨
              (runSteps ds (HoldingIterator.mk s.holding
                (s.holding.frontInit (s.front + 1)) s.back)).2.back < r)) := hmemb
        rw [hrun1, hrun2]
        refine ⟨hold₁, hinv', by omega, hmonb', ?_, ?_⟩
        · rw [List.nodup_cons]
          refine ⟨?_, hnd'⟩
          intro hmem
          obtain ⟨_, h1, _, _⟩ := (hmemb2 _).mp hmem
          omega
        · intro r
          rw [List.mem_cons, hmemb2 r]
          constructor
          · rintro (rfl | ⟨hc, h1, h2, h3⟩)
            · exact ⟨hcf, Nat.le_refl _, hx, by omega⟩
            · exact ⟨hc, by omega, h2, h3⟩
          · rintro ⟨hc, h1, h2, h3⟩
            by_cases hr : r = s.front
            · exact Or.inl hr
            · refine Or.inr ⟨hc, ?_, h2, h3⟩
              by_contra hlt
              push_neg at hlt
              have hfalse := Holding.frontInit_skip s.holding
                (show s.front + 1 ≤ r by omega) hlt
              rw [hfalse] at hc
              exact Bool.false_ne_true hc

/-! ## Claim C10: interleaved forward and backward stepping -/

/-- C10: for every holding whose set ranks all lie in `[2,14]` and every
interleaving of forward and backward steps on a single iterator, no rank is
yielded twice, no rank outside the holding is yielded, and once the iterator
is exhausted (in both directions at once, `front > back`) the yields are
exactly the holding's membership. -/
theorem interleaved_iteration_exact (h : Holding)
    (hbits : ∀ i, h.bits.testBit i = true → 2 ≤ i ∧ i ≤ 14) (ds : List Bool) :
    (runSteps ds h.iter).1.Nodup ∧
    (∀ y ∈ (runSteps ds h.iter).1, h.contains y = true) ∧
    ((runSteps ds h.iter).2.back < (runSteps ds h.iter).2.front →
      ∀ r, r ∈ (runSteps ds h.iter).1 ↔ h.bits.testBit r = true) := by
  obtain ⟨hold, hinv, hmf, hmb, hnd, hmemb⟩ := runSteps_spec ds h.iter (iter_inv h)
  have hmemb' : ∀ r, r ∈ (runSteps ds h.iter).1 ↔
      (h.contains r = true ∧ h.frontInit 2 ≤ r ∧ r ≤ h.backInit 14 ∧
        (r < (runSteps ds h.iter).2.front ∨ (runSteps ds h.iter).2.back < r)) := hmemb
  refine ⟨hnd, ?_, ?_⟩
  · intro y hy
    exact ((hmemb' y).mp hy).1
  · intro hex r
    have hBle := h.backInit_le 14
    have hFge := h.frontInit_ge 2
    constructor
    · intro hr
      obtain ⟨hc, h1, h2, _⟩ := (hmemb' r).mp hr
      rw [h.contains_eq_testBit_of_lt (show r < 32 by omega)] at hc
      exact hc
    · intro hr
      obtain ⟨hr2, hr14⟩ := hbits r hr
      have hc : h.contains r = true := by
        rw [h.contains_eq_testBit_of_lt (show r < 32 by omega)]
        exact hr
      refine (hmemb' r).mpr ⟨hc, ?_, ?_, by omega⟩
      · by_contra hlt
        push_neg at hlt
        have hfalse := h.frontInit_skip hr2 hlt
        rw [hfalse] at hc
        exact Bool.false_ne_true hc
      · by_contra hgt
        push_neg at hgt
        have hfalse := h.backInit_skip hgt hr14
        rw [hfalse] at hc
        exact Bool.false_ne_true hc

/-- Witness for C10 at `Holding(0b100100100)` with the interleaving
forward, backward, forward, backward. -/
theorem interleaved_iteration_exact_witness :
    (∀ i, Nat.testBit 292 i = true → 2 ≤ i ∧ i ≤ 14) ∧
    ((runSteps [true, false, true, false] (Holding.mk 292).iter).1.Nodup ∧
     (∀ y ∈ (runSteps [true, false, true, false] (Holding.mk 292).iter).1,
        (Holding.mk 292).contains y = true) ∧
     ((runSteps [true, false, true, false] (Holding.mk 292).iter).2.back <
        (runSteps [true, false, true, false] (Holding.mk 292).iter).2.front →
       ∀ r, r ∈ (runSteps [true, false, true, false] (Holding.mk 292).iter).1 ↔
         Nat.testBit 292 r = true)) :=
  ⟨testBit_292_in_range,
   interleaved_iteration_exact (Holding.mk 292) testBit_292_in_range
     [true, false, true, false]⟩
